import Mathlib

/-!
Verification of the routing core of the Logistics Route Optimization System
(`src/main.py`, class `LogisticsOptimizer`).

The mutable `networkx` graph held by the `LogisticsOptimizer` object is
embedded as an explicit `Graph` value: a list of nodes (name plus the optional
`pos` attribute) and a list of undirected edges carrying the three weight
attributes `distance`, `time`, `cost`.  Node and edge weights entered through
the GUI are numeric and non-negative in every claim under study; they are
modelled as `Nat`.  Positions are opaque payload for the renderer (the core
never computes with them); they are modelled as pairs of rationals.

`heapq` over `(weight, node, path)` tuples is embedded as a list kept sorted
by the same lexicographic order; two entries comparing equal under that order
are identical tuples, so pop order agrees with any binary-heap realisation.
The `while pq:` loop is embedded with explicit fuel together with a proof that
the chosen fuel is never exhausted.  A `NetworkXError` raised by
`graph.neighbors` on an absent node is the `err` result.
-/

abbrev Loc := String

abbrev Pos := Rat × Rat

/-- The three edge attributes stored by `add_route`. -/
structure Route where
  distance : Nat
  time : Nat
  cost : Nat
deriving DecidableEq, Repr

/-- `edge_data.get(weight_type, 1)` — the stored attribute dicts have exactly
the keys `distance`, `time`, `cost`; any other metric string falls back to
the default `1`. -/
def Route.get (r : Route) (m : String) : Nat :=
  if m = "distance" then r.distance
  else if m = "time" then r.time
  else if m = "cost" then r.cost
  else 1

/-- The `networkx` graph: nodes with their optional `pos` attribute, and
undirected edges with their attribute record. -/
structure Graph where
  nodes : List (Loc × Option Pos)
  edges : List (Loc × Loc × Route)
deriving DecidableEq, Repr

def Graph.nodeNames (g : Graph) : List Loc := g.nodes.map Prod.fst

def Graph.hasNode (g : Graph) (n : Loc) : Bool := g.nodeNames.contains n

/-- Whether a stored edge connects the unordered pair `{u, v}`. -/
def sameEnds (u v : Loc) (e : Loc × Loc × Route) : Bool :=
  (e.1 = u && e.2.1 = v) || (e.1 = v && e.2.1 = u)

/-- `graph[u][v]` / `graph.has_edge(u, v)`: the attribute record of the edge
between `u` and `v`, if any. -/
def Graph.findRoute (g : Graph) (u v : Loc) : Option Route :=
  (g.edges.find? (sameEnds u v)).map (fun e => e.2.2)

/-- `graph.neighbors(u)` together with the edge data of each incident edge. -/
def Graph.neighborsR (g : Graph) (u : Loc) : List (Loc × Route) :=
  g.edges.filterMap (fun e =>
    if e.1 = u then some (e.2.1, e.2.2)
    else if e.2.1 = u then some (e.1, e.2.2)
    else none)

/-- `nx.Graph.add_node(name, pos=pos)`: a fresh node is appended, an existing
node keeps its place and gets its `pos` attribute overwritten. -/
def Graph.addNode (g : Graph) (n : Loc) (p : Pos) : Graph :=
  if g.hasNode n then
    { g with nodes := g.nodes.map (fun x => if x.1 = n then (n, some p) else x) }
  else { g with nodes := g.nodes ++ [(n, some p)] }

/-- Node creation performed implicitly by `nx.Graph.add_edge` for an absent
endpoint: the node is added with no `pos` attribute. -/
def Graph.addNodeBare (g : Graph) (n : Loc) : Graph :=
  if g.hasNode n then g else { g with nodes := g.nodes ++ [(n, none)] }

/-- Edge insertion part of `nx.Graph.add_edge`: an existing edge between the
pair has its attributes overwritten, otherwise the edge is appended. -/
def Graph.addEdgeRoute (g : Graph) (u v : Loc) (r : Route) : Graph :=
  if g.edges.any (sameEnds u v) then
    { g with edges := g.edges.map (fun e => if sameEnds u v e then (e.1, e.2.1, r) else e) }
  else { g with edges := g.edges ++ [(u, v, r)] }

/-- `nx.Graph.add_edge(u, v, distance=..., time=..., cost=...)`: absent
endpoints are created, then the edge is stored. -/
def Graph.addEdge (g : Graph) (u v : Loc) (r : Route) : Graph :=
  ((g.addNodeBare u).addNodeBare v).addEdgeRoute u v r

/-- `LogisticsOptimizer.add_location` (the `self.locations` mirror dict is
write-only for the routing core and is not modelled separately). -/
def add_location (g : Graph) (name : Loc) (p : Pos) : Graph := g.addNode name p

/-- `LogisticsOptimizer.add_route`. -/
def add_route (g : Graph) (a b : Loc) (d t c : Nat) : Graph :=
  g.addEdge a b ⟨d, t, c⟩

/-! ## Dijkstra (`LogisticsOptimizer.dijkstra`) -/

/-- A priority-queue element `(weight, node, path)`. -/
abbrev Entry := Nat × Loc × List Loc

/-- Python list comparison (lexicographic, a strict prefix is smaller). -/
def locListLt : List Loc → List Loc → Bool
  | [], [] => false
  | [], _ :: _ => true
  | _ :: _, [] => false
  | a :: as, b :: bs => if a < b then true else if b < a then false else locListLt as bs

/-- Python tuple comparison on `(weight, node, path)`. -/
def entryLt (e1 e2 : Entry) : Bool :=
  if e1.1 < e2.1 then true
  else if e2.1 < e1.1 then false
  else if e1.2.1 < e2.2.1 then true
  else if e2.2.1 < e1.2.1 then false
  else locListLt e1.2.2 e2.2.2

/-- `heapq.heappush`: the queue is kept sorted by the tuple order, so the head
is always the element `heapq.heappop` returns. -/
def heapPush (e : Entry) : List Entry → List Entry
  | [] => [e]
  | x :: xs => if entryLt e x then e :: x :: xs else x :: heapPush e xs

/-- Outcome of `dijkstra`: a `(path, total_weight)` pair, the sentinel
`(None, float('inf'))`, or an uncaught `NetworkXError` from
`graph.neighbors` on a node that is not in the graph.  `fuelOut` is an
artefact of the fuelled embedding and is proved unreachable. -/
inductive DijkstraResult where
  | found : List Loc → Nat → DijkstraResult
  | notFound : DijkstraResult
  | err : DijkstraResult
  | fuelOut : DijkstraResult
deriving DecidableEq, Repr

/-- `x < y` for a possibly-infinite right-hand side (`none` stands for
`float('inf')`). -/
def ltInf (x : Nat) : Option Nat → Bool
  | none => true
  | some d => decide (x < d)

/-- The `for neighbor in self.graph.neighbors(current_node):` relaxation loop:
skip visited neighbours, compare `new_weight` against the distance table
(`none` standing for `float('inf')`), update the table and push on success. -/
def relaxAll (m : String) (w : Nat) (p : List Loc) (visited : List Loc) :
    List (Loc × Route) → (Loc → Option Nat) → List Entry →
      ((Loc → Option Nat) × List Entry)
  | [], dist, pq => (dist, pq)
  | (v, r) :: rest, dist, pq =>
    if v ∈ visited then relaxAll m w p visited rest dist pq
    else
      if ltInf (w + r.get m) (dist v) then
        relaxAll m w p visited rest (fun x => if x = v then some (w + r.get m) else dist x)
          (heapPush (w + r.get m, v, p ++ [v]) pq)
      else relaxAll m w p visited rest dist pq

/-- The `while pq:` loop of `dijkstra`. -/
def dijkstraLoop (g : Graph) (endl : Loc) (m : String) :
    Nat → List Entry → List Loc → (Loc → Option Nat) → DijkstraResult
  | 0, _, _, _ => .fuelOut
  | _ + 1, [], _, _ => .notFound
  | fuel + 1, (w, u, p) :: pq, visited, dist =>
    if u ∈ visited then dijkstraLoop g endl m fuel pq visited dist
    else
      if u = endl then .found p w
      else if g.hasNode u then
        dijkstraLoop g endl m fuel
          (relaxAll m w p (u :: visited) (g.neighborsR u) dist pq).2
          (u :: visited)
          (relaxAll m w p (u :: visited) (g.neighborsR u) dist pq).1
      else .err

/-- Fuel that dominates the loop potential `|pq| + Σ degrees of unvisited
nodes` (proved below). -/
def dijkstraFuel (g : Graph) : Nat := g.nodes.length * (g.edges.length + 1) + 2

/-- `LogisticsOptimizer.dijkstra(start, end, weight_type)`. -/
def dijkstra (g : Graph) (start endl : Loc) (m : String) : DijkstraResult :=
  dijkstraLoop g endl m (dijkstraFuel g) [(0, start, [start])] []
    (fun v => if v = start then some 0 else none)

/-! ## Multi-stop planner (`LogisticsOptimizer.find_multi_stop_route`) -/

/-- `dist < min_dist`, where `min_dist` is the `(nearest, best_path,
min_dist)` running best, or the initial `float('inf')` sentinel when no stop
has been selected yet. -/
def betterStop (d : Nat) : Option (Loc × List Loc × Nat) → Bool
  | none => true
  | some x => decide (d < x.2.2)

/-- `for stop in unvisited:` — the scan for the nearest remaining stop,
carrying the `(nearest, best_path, min_dist)` running best.  The outer
`none` is an exception escaping from a `dijkstra` call. -/
def scanStops (g : Graph) (m : String) (current : Loc) :
    List Loc → Option (Loc × List Loc × Nat) → Option (Option (Loc × List Loc × Nat))
  | [], best => some best
  | s :: ss, best =>
    match dijkstra g current s m with
    | .found p d =>
      if p.isEmpty then scanStops g m current ss best
      else if betterStop d best then scanStops g m current ss (some (s, p, d))
      else scanStops g m current ss best
    | .notFound => scanStops g m current ss best
    | .err => none
    | .fuelOut => none

/-- A stop produced by the scan comes from the scanned list or from the
running best the scan started with. -/
theorem scanStops_src {g m current} :
    ∀ {ss : List Loc} {best n p d},
      scanStops g m current ss best = some (some (n, p, d)) →
        n ∈ ss ∨ ∃ q e, best = some (n, q, e)
  | [], best, n, p, d, h => by
    simp only [scanStops, Option.some.injEq] at h
    exact .inr ⟨p, d, by rw [h]⟩
  | s :: ss, best, n, p, d, h => by
    rw [scanStops] at h
    split at h
    · split at h
      · rcases scanStops_src h with h3 | h3
        · exact .inl (List.mem_cons_of_mem _ h3)
        · exact .inr h3
      · split at h
        · rcases scanStops_src h with h3 | h3
          · exact .inl (List.mem_cons_of_mem _ h3)
          · rcases h3 with ⟨q, e, hqe⟩
            simp only [Option.some.injEq, Prod.mk.injEq] at hqe
            rw [hqe.1]
            exact .inl (List.mem_cons_self _ _)
        · rcases scanStops_src h with h3 | h3
          · exact .inl (List.mem_cons_of_mem _ h3)
          · exact .inr h3
    · rcases scanStops_src h with h3 | h3
      · exact .inl (List.mem_cons_of_mem _ h3)
      · exact .inr h3
    · exact absurd h (by simp)
    · exact absurd h (by simp)

/-- `while unvisited:` — follow the nearest remaining stop, or stop early
when the scan finds none (`nearest is None`).  The outer `none` propagates an
exception from a `dijkstra` call. -/
def multiStopLoop (g : Graph) (m : String) (current : Loc) (unvisited : List Loc)
    (route : List Loc) (total : Nat) : Option (List Loc × Nat) :=
  match h : scanStops g m current unvisited none with
  | none => none
  | some none => some (route, total)
  | some (some (nearest, bestPath, minDist)) =>
    multiStopLoop g m nearest (unvisited.erase nearest) (route ++ bestPath.tail)
      (total + minDist)
termination_by unvisited.length
decreasing_by
  rcases scanStops_src h with hmem | hmem
  · have h1 := List.length_erase_of_mem hmem
    have h2 := List.length_pos_of_mem hmem
    omega
  · exact absurd hmem (by simp)

/-- First-occurrence deduplication: the embedding of `set(stops)` (Python set
iteration order is unspecified; first-occurrence order is one realisation,
and no claim under study depends on the order). -/
def dedupFirst : List Loc → List Loc
  | [] => []
  | x :: xs => x :: dedupFirst (xs.filter (fun y => !(y = x)))
termination_by l => l.length
decreasing_by
  exact Nat.lt_succ_of_le (List.length_filter_le _ _)

/-- `LogisticsOptimizer.find_multi_stop_route(start, stops, weight_type)`. -/
def find_multi_stop_route (g : Graph) (start : Loc) (stops : List Loc) (m : String) :
    Option (List Loc × Nat) :=
  if stops.isEmpty then some ([start], 0)
  else multiStopLoop g m start (dedupFirst stops) [start] 0

/-! ## Route summary (`LogisticsOptimizer.calculate_route`, totals loop) -/

/-- The `for i in range(len(route) - 1):` loop of `calculate_route`: each
consecutive pair contributes its edge attributes when `graph.has_edge` holds
and is silently skipped otherwise. -/
def routeTotalsGo (g : Graph) : List Loc → Nat × Nat × Nat → Nat × Nat × Nat
  | u :: v :: rest, acc =>
    match g.findRoute u v with
    | some r => routeTotalsGo g (v :: rest) (acc.1 + r.distance, acc.2.1 + r.time, acc.2.2 + r.cost)
    | none => routeTotalsGo g (v :: rest) acc
  | _, acc => acc

/-- `(total_distance, total_time, total_cost)` computed by `calculate_route`
for a given route. -/
def routeTotals (g : Graph) (route : List Loc) : Nat × Nat × Nat :=
  routeTotalsGo g route (0, 0, 0)

/-! ## Sample data (`LogisticsOptimizer.init` sample network) -/

def sampleLocations : List (Loc × Pos) :=
  [("Warehouse", (1/10, 1/2)), ("City_A", (3/10, 4/5)), ("City_B", (1/2, 3/5)),
   ("City_C", (7/10, 9/10)), ("City_D", (3/5, 3/10)), ("City_E", (9/10, 1/2)),
   ("Hub_1", (2/5, 2/5)), ("Hub_2", (7/10, 3/5))]

def sampleEdges : List (Loc × Loc × Route) :=
  [("Warehouse", "City_A", ⟨25, 30, 15⟩), ("Warehouse", "Hub_1", ⟨20, 25, 12⟩),
   ("City_A", "City_B", ⟨18, 22, 10⟩), ("City_B", "Hub_1", ⟨15, 18, 9⟩),
   ("City_B", "City_C", ⟨22, 28, 13⟩), ("City_B", "Hub_2", ⟨16, 20, 11⟩),
   ("City_C", "Hub_2", ⟨12, 15, 8⟩), ("City_C", "City_E", ⟨20, 24, 12⟩),
   ("Hub_1", "City_D", ⟨14, 17, 9⟩), ("City_D", "Hub_2", ⟨13, 16, 8⟩),
   ("City_D", "City_E", ⟨19, 23, 11⟩), ("Hub_2", "City_E", ⟨17, 21, 10⟩)]

/-- The network built by `initialize_sample_data`: all sample locations added
via `add_location`, then all sample edges via `add_route`. -/
def sampleGraph : Graph :=
  sampleEdges.foldl (fun g e => add_route g e.1 e.2.1 e.2.2.distance e.2.2.time e.2.2.cost)
    (sampleLocations.foldl (fun g l => add_location g l.1 l.2) ⟨[], []⟩)

/-! ## Paths and reachability (specification side) -/

/-- Each consecutive pair along `a :: tail` is connected by a Route. -/
def chainOK (g : Graph) : Loc → List Loc → Bool
  | _, [] => true
  | a, b :: rest => (g.findRoute a b).isSome && chainOK g b rest

/-- The last location of the walk `a :: tail`. -/
def lastLoc : Loc → List Loc → Loc
  | a, [] => a
  | _, b :: rest => lastLoc b rest

/-- A valid path from `a` to `b`: nonempty, starts at `a`, consecutive pairs
connected, ends at `b` (spec §3, Path). -/
def isPath (g : Graph) (a b : Loc) : List Loc → Bool
  | [] => false
  | x :: xs => x = a && chainOK g x xs && lastLoc x xs = b

/-- Weight contribution of the step `a — b` (0 when no Route connects the
pair; on valid paths the Route always exists). -/
def edgeW (g : Graph) (m : String) (a b : Loc) : Nat :=
  match g.findRoute a b with
  | some r => r.get m
  | none => 0

/-- The summed `m`-weight of the edges along the walk `a :: tail`. -/
def weightFrom (g : Graph) (m : String) : Loc → List Loc → Nat
  | _, [] => 0
  | a, b :: rest => edgeW g m a b + weightFrom g m b rest

/-- The summed `m`-weight of a path. -/
def pathWeight (g : Graph) (m : String) : List Loc → Nat
  | [] => 0
  | a :: tail => weightFrom g m a tail

def Reachable (g : Graph) (a b : Loc) : Prop := ∃ p, isPath g a b p = true

/-- Structural well-formedness maintained by the network mutation operations:
edge endpoints exist as nodes and at most one edge joins an unordered pair. -/
def edgesDisjoint : List (Loc × Loc × Route) → Bool
  | [] => true
  | e :: rest => rest.all (fun e2 => !(sameEnds e.1 e.2.1 e2)) && edgesDisjoint rest

def Graph.wf (g : Graph) : Bool :=
  g.edges.all (fun e => g.nodeNames.contains e.1 && g.nodeNames.contains e.2.1)
    && edgesDisjoint g.edges

set_option maxRecDepth 100000

/-! ## Basic facts about the mutation operations -/

theorem sameEnds_swap (u v : Loc) (e : Loc × Loc × Route) :
    sameEnds u v e = sameEnds v u e := by
  simp only [sameEnds]
  exact Bool.or_comm _ _

theorem sameEnds_route (u v x y : Loc) (r1 r2 : Route) :
    sameEnds u v (x, y, r1) = sameEnds u v (x, y, r2) := rfl

theorem findRoute_symm (g : Graph) (u v : Loc) :
    g.findRoute u v = g.findRoute v u := by
  unfold Graph.findRoute
  rw [show sameEnds u v = sameEnds v u from funext (sameEnds_swap u v)]

theorem addNodeBare_edges (g : Graph) (n : Loc) : (g.addNodeBare n).edges = g.edges := by
  unfold Graph.addNodeBare
  split <;> rfl

theorem hasNode_addNodeBare_self (g : Graph) (n : Loc) :
    (g.addNodeBare n).hasNode n = true := by
  unfold Graph.addNodeBare
  split
  · assumption
  · simp [Graph.hasNode, Graph.nodeNames]

theorem hasNode_mem (g : Graph) (x : Loc) : g.hasNode x = true ↔ x ∈ g.nodeNames := by
  simp [Graph.hasNode, List.contains, List.elem_iff]

theorem hasNode_addNodeBare_mono (g : Graph) (n x : Loc) (h : g.hasNode x = true) :
    (g.addNodeBare n).hasNode x = true := by
  unfold Graph.addNodeBare
  split
  · exact h
  · rw [hasNode_mem] at h ⊢
    simp only [Graph.nodeNames, List.map_append, List.mem_append]
    exact .inl h

/-- The first matching element of an edge list whose matching elements all had
their route overwritten. -/
theorem find?_overwriteEdges (u v : Loc) (r : Route) :
    ∀ l : List (Loc × Loc × Route), l.any (sameEnds u v) = true →
      ∃ x y, (l.map (fun e => if sameEnds u v e then (e.1, e.2.1, r) else e)).find?
          (sameEnds u v) = some (x, y, r)
  | e :: rest, h => by
    by_cases he : sameEnds u v e = true
    · refine ⟨e.1, e.2.1, ?_⟩
      have hpred : sameEnds u v (e.1, e.2.1, r) = true := by
        rw [sameEnds_route u v e.1 e.2.1 r e.2.2]
        exact he
      simp [List.find?, he, hpred]
    · have hrest : rest.any (sameEnds u v) = true := by
        rcases List.any_eq_true.mp h with ⟨a, ha, hpa⟩
        rcases List.mem_cons.mp ha with rfl | ha
        · exact absurd hpa he
        · exact List.any_eq_true.mpr ⟨a, ha, hpa⟩
      rcases find?_overwriteEdges u v r rest hrest with ⟨x, y, hxy⟩
      refine ⟨x, y, ?_⟩
      simp [List.find?, he, hxy]

/-- After `find?` fails on every element of `l`, searching `l ++ [e]` yields `e`. -/
theorem find?_append_last (p : Loc × Loc × Route → Bool) (e : Loc × Loc × Route) :
    ∀ l : List (Loc × Loc × Route), l.any p = false → p e = true →
      (l ++ [e]).find? p = some e
  | [], _, hpe => by simp [List.find?, hpe]
  | x :: xs, h, hpe => by
    have hx : p x = false := by
      by_contra hx
      simp only [List.any_cons, Bool.or_eq_false_iff] at h
      exact hx (by simp [h.1])
    have hxs : xs.any p = false := by
      simp only [List.any_cons, Bool.or_eq_false_iff] at h
      exact h.2
    simp [List.find?, hx, find?_append_last p e xs hxs hpe]

theorem addEdgeRoute_nodes (g : Graph) (u v : Loc) (r : Route) :
    (g.addEdgeRoute u v r).nodes = g.nodes := by
  unfold Graph.addEdgeRoute
  split <;> rfl

theorem hasNode_addEdgeRoute (g : Graph) (u v x : Loc) (r : Route) :
    (g.addEdgeRoute u v r).hasNode x = g.hasNode x := by
  simp [Graph.hasNode, Graph.nodeNames, addEdgeRoute_nodes]

theorem findRoute_addEdgeRoute_self (g : Graph) (u v : Loc) (r : Route) :
    (g.addEdgeRoute u v r).findRoute u v = some r := by
  unfold Graph.addEdgeRoute Graph.findRoute
  split
  · next h =>
    rcases find?_overwriteEdges u v r _ h with ⟨x, y, hxy⟩
    simp only []
    rw [hxy]
    rfl
  · next h =>
    have hpe : sameEnds u v (u, v, r) = true := by simp [sameEnds]
    simp only []
    rw [find?_append_last (sameEnds u v) (u, v, r) _ (by simpa using h) hpe]
    rfl

theorem findRoute_addEdge_self (g : Graph) (u v : Loc) (r : Route) :
    (g.addEdge u v r).findRoute u v = some r :=
  findRoute_addEdgeRoute_self _ u v r

/-- Claim C4 (counterexample): `add_route` on a pair with an absent endpoint
does not fail and does create both a Location and a Route; with `a == b` it
creates a self-loop Route.  The network is changed in every case. -/
theorem c4_add_route_unvalidated_counterexample :
    (add_route ⟨[("A", some (0, 0))], []⟩ "A" "B" 5 6 7).nodes
        = [("A", some (0, 0)), ("B", none)] ∧
    (add_route ⟨[("A", some (0, 0))], []⟩ "A" "B" 5 6 7).edges
        = [("A", "B", ⟨5, 6, 7⟩)] ∧
    (add_route ⟨[("A", some (0, 0))], []⟩ "A" "A" 1 2 3).edges
        = [("A", "A", ⟨1, 2, 3⟩)] := by
  refine ⟨?_, ?_, ?_⟩ <;> decide

/-- Claim C4 (amended): `add_route` performs no validation.  Absent endpoints
are silently created as Locations (without the SelfLoop or UnknownLocation
failures the spec describes), and the Route is recorded between `a` and `b` —
also when `a = b`. -/
theorem c4_add_route_unvalidated (g : Graph) (a b : Loc) (d t c : Nat) :
    (add_route g a b d t c).hasNode a = true ∧
    (add_route g a b d t c).hasNode b = true ∧
    (add_route g a b d t c).findRoute a b = some ⟨d, t, c⟩ := by
  unfold add_route Graph.addEdge
  refine ⟨?_, ?_, findRoute_addEdgeRoute_self _ a b ⟨d, t, c⟩⟩
  · rw [hasNode_addEdgeRoute]
    exact hasNode_addNodeBare_mono _ b a (hasNode_addNodeBare_self g a)
  · rw [hasNode_addEdgeRoute]
    exact hasNode_addNodeBare_self _ b

/-! ## Claim C7: `add_location` on an existing name -/

/-- Claim C7 (counterexample): `add_location` with an existing name does not
fail; the location count is unchanged but the stored position of the existing
Location is overwritten with the new one. -/
theorem c7_add_location_overwrites_counterexample :
    (add_location (add_location ⟨[], []⟩ "A" (0, 0)) "A" (1, 1)).nodes
        = [("A", some (1, 1))] ∧
    (add_location ⟨[], []⟩ "A" (0, 0)).nodes = [("A", some (0, 0))] ∧
    some ((1 : Rat), (1 : Rat)) ≠ some ((0 : Rat), (0 : Rat)) := by
  refine ⟨by decide, by decide, by decide⟩

theorem find?_overwriteNodes (name : Loc) (p : Pos) :
    ∀ l : List (Loc × Option Pos), name ∈ l.map Prod.fst →
      (l.map (fun x => if x.1 = name then (name, some p) else x)).find?
          (fun x => x.1 = name) = some (name, some p)
  | x :: xs, h => by
    by_cases hx : x.1 = name
    · simp [List.find?, hx]
    · have hxs : name ∈ xs.map Prod.fst := by
        rcases List.mem_map.mp h with ⟨a, ha, hfst⟩
        rcases List.mem_cons.mp ha with rfl | ha
        · exact absurd hfst hx
        · exact List.mem_map.mpr ⟨a, ha, hfst⟩
      simp [List.find?, hx, find?_overwriteNodes name p xs hxs]

/-- Claim C7 (amended): on a duplicate name `add_location` keeps the location
count unchanged, but instead of failing it overwrites the stored position of
the existing Location with the newly supplied one. -/
theorem c7_add_location_existing (g : Graph) (name : Loc) (p : Pos)
    (h : name ∈ g.nodeNames) :
    (add_location g name p).nodes.length = g.nodes.length ∧
    (add_location g name p).nodes.find? (fun x => x.1 = name) = some (name, some p) := by
  unfold add_location Graph.addNode
  rw [if_pos ((hasNode_mem g name).mpr h)]
  exact ⟨List.length_map _ _, find?_overwriteNodes name p g.nodes h⟩

/-- Closes the hypothesis of the amended C7 theorem on the sample network. -/
theorem c7_add_location_existing_witness :
    "City_A" ∈ sampleGraph.nodeNames ∧
    ((add_location sampleGraph "City_A" (0, 0)).nodes.length
        = sampleGraph.nodes.length ∧
     (add_location sampleGraph "City_A" (0, 0)).nodes.find? (fun x => x.1 = "City_A")
        = some ("City_A", some (0, 0))) :=
  ⟨by decide, c7_add_location_existing sampleGraph "City_A" (0, 0) (by decide)⟩

/-! ## Claim C8: `add_route` on an existing pair overwrites -/

theorem findRoute_isSome_any (g : Graph) (u v : Loc) :
    (g.findRoute u v).isSome = g.edges.any (sameEnds u v) := by
  unfold Graph.findRoute
  rcases hf : g.edges.find? (sameEnds u v) with _ | e
  · simp only [Option.map_none', Option.isSome_none]
    exact (List.any_eq_false.mpr fun x hx => by
      simpa using List.find?_eq_none.mp hf x hx).symm
  · simp only [Option.map_some', Option.isSome_some]
    exact (List.any_eq_true.mpr
      ⟨e, List.mem_of_find?_eq_some hf, List.find?_some hf⟩).symm

/-- Claim C8 (theorem): when a Route already exists between `a` and `b`,
`add_route` overwrites its three weights in place: the edge count is
unchanged and the weight lookup — in either endpoint order — returns the
later weights.  No parallel edge is created. -/
theorem c8_add_route_overwrites (g : Graph) (a b : Loc) (d t c : Nat)
    (ha : a ∈ g.nodeNames) (hb : b ∈ g.nodeNames)
    (hex : (g.findRoute a b).isSome = true) :
    (add_route g a b d t c).edges.length = g.edges.length ∧
    (add_route g a b d t c).findRoute a b = some ⟨d, t, c⟩ ∧
    (add_route g a b d t c).findRoute b a = some ⟨d, t, c⟩ := by
  have hany : g.edges.any (sameEnds a b) = true := by
    rw [← findRoute_isSome_any]; exact hex
  have hedges : (add_route g a b d t c).edges
      = g.edges.map (fun e => if sameEnds a b e then (e.1, e.2.1, ⟨d, t, c⟩) else e) := by
    unfold add_route Graph.addEdge Graph.addEdgeRoute
    rw [addNodeBare_edges, addNodeBare_edges, if_pos hany]
  refine ⟨by rw [hedges]; exact List.length_map _ _, ?_, ?_⟩
  · exact findRoute_addEdge_self _ a b ⟨d, t, c⟩
  · rw [findRoute_symm]
    exact findRoute_addEdge_self _ a b ⟨d, t, c⟩

/-- Closes the hypotheses of the C8 theorem on the sample network
(the Warehouse—Hub_1 edge is overwritten with new weights). -/
theorem c8_add_route_overwrites_witness :
    ("Warehouse" ∈ sampleGraph.nodeNames ∧ "Hub_1" ∈ sampleGraph.nodeNames ∧
      (sampleGraph.findRoute "Warehouse" "Hub_1").isSome = true) ∧
    ((add_route sampleGraph "Warehouse" "Hub_1" 99 98 97).edges.length
        = sampleGraph.edges.length ∧
     (add_route sampleGraph "Warehouse" "Hub_1" 99 98 97).findRoute "Warehouse" "Hub_1"
        = some ⟨99, 98, 97⟩ ∧
     (add_route sampleGraph "Warehouse" "Hub_1" 99 98 97).findRoute "Hub_1" "Warehouse"
        = some ⟨99, 98, 97⟩) :=
  ⟨⟨by decide, by decide, by decide⟩,
    c8_add_route_overwrites sampleGraph "Warehouse" "Hub_1" 99 98 97
      (by decide) (by decide) (by decide)⟩

/-! ## Claim C5: the route-summary loop and missing edges -/

/-- Claim C5 (counterexample): on the sample network, summarising the
externally supplied path `[Warehouse, City_E, Hub_2]` — whose first
consecutive pair has no Route — produces totals from the remaining pair
instead of failing: the missing edge is silently skipped. -/
theorem c5_summary_skips_counterexample :
    sampleGraph.findRoute "Warehouse" "City_E" = none ∧
    routeTotals sampleGraph ["Warehouse", "City_E"] = (0, 0, 0) ∧
    routeTotals sampleGraph ["Warehouse", "City_E", "Hub_2"] = (17, 21, 10) := by
  refine ⟨by decide, by decide, by decide⟩

/-- Claim C5 (amended): a consecutive pair with no connecting Route
contributes nothing to the totals of `calculate_route` — the pair is
silently skipped, no `BrokenPath` failure exists. -/
theorem c5_summary_skips_missing (g : Graph) (u v : Loc) (rest : List Loc)
    (acc : Nat × Nat × Nat) (h : g.findRoute u v = none) :
    routeTotalsGo g (u :: v :: rest) acc = routeTotalsGo g (v :: rest) acc := by
  rw [routeTotalsGo, h]

/-- Closes the hypothesis of the amended C5 theorem on the sample network. -/
theorem c5_summary_skips_missing_witness :
    sampleGraph.findRoute "Warehouse" "City_C" = none ∧
    routeTotalsGo sampleGraph ["Warehouse", "City_C", "Hub_2"] (0, 0, 0)
      = routeTotalsGo sampleGraph ["City_C", "Hub_2"] (0, 0, 0) :=
  ⟨by decide,
    c5_summary_skips_missing sampleGraph "Warehouse" "City_C" ["Hub_2"] (0, 0, 0) (by decide)⟩

/-! ## Claim C2: the sample-network end-to-end scenario -/

/-- Claim C2 (counterexample): on the sample network,
`dijkstra('Warehouse', 'City_E', 'distance')` does not return the path
`[Warehouse, Hub_1, City_D, Hub_2, City_E]` with weight 64 stated by the
spec — the network has the cheaper route via the City_D—City_E edge. -/
theorem c2_sample_route_counterexample :
    dijkstra sampleGraph "Warehouse" "City_E" "distance" ≠
      .found ["Warehouse", "Hub_1", "City_D", "Hub_2", "City_E"] 64 := by
  decide

/-- Claim C2 (amended): the call returns exactly the path
`[Warehouse, Hub_1, City_D, City_E]` with total weight 53 = 20 + 14 + 19,
which also beats both paths named by the spec (64 and 85). -/
theorem c2_sample_route :
    dijkstra sampleGraph "Warehouse" "City_E" "distance" =
      .found ["Warehouse", "Hub_1", "City_D", "City_E"] 53 := by
  decide

/-! ## Claim C6: `dijkstra(X, X)` -/

/-- The very first pop returns `([start], 0)` whenever `start == end` — the
initial queue entry is popped, `start` is added to `visited`, and the
`current_node == end` test succeeds immediately. -/
theorem dijkstra_self (g : Graph) (X : Loc) (m : String) :
    dijkstra g X X m = .found [X] 0 := by
  show dijkstraLoop g X m (g.nodes.length * (g.edges.length + 1) + 2) [(0, X, [X])] [] _ = _
  rw [show g.nodes.length * (g.edges.length + 1) + 2
      = (g.nodes.length * (g.edges.length + 1) + 1) + 1 from rfl]
  rw [dijkstraLoop]
  simp

/-- Claim C6 (theorem): for every network, metric and location `X` present in
the network, `dijkstra(X, X, m)` returns the single-node path `[X]` with
total weight 0. -/
theorem c6_dijkstra_self (g : Graph) (X : Loc) (m : String)
    (hX : X ∈ g.nodeNames) : dijkstra g X X m = .found [X] 0 :=
  dijkstra_self g X m

/-- Closes the hypothesis of the C6 theorem on the sample network. -/
theorem c6_dijkstra_self_witness :
    "Hub_2" ∈ sampleGraph.nodeNames ∧
    dijkstra sampleGraph "Hub_2" "Hub_2" "cost" = .found ["Hub_2"] 0 :=
  ⟨by decide, c6_dijkstra_self sampleGraph "Hub_2" "cost" (by decide)⟩

/-! ## Priority-queue facts -/

/-- Queue weights are nondecreasing from the head, so the head is the minimum
`heapq.heappop` returns. -/
def PQSorted (pq : List Entry) : Prop := List.Pairwise (fun a b => a.1 ≤ b.1) pq

theorem entryLt_weight_le {a b : Entry} (h : entryLt a b = true) : a.1 ≤ b.1 := by
  unfold entryLt at h
  split_ifs at h <;> first | omega | exact absurd h (by simp)

theorem entryLt_false_weight_le {a b : Entry} (h : entryLt a b = false) : b.1 ≤ a.1 := by
  unfold entryLt at h
  split_ifs at h <;> first | omega | exact absurd h (by simp)

theorem mem_heapPush (e x : Entry) : ∀ l : List Entry, (x ∈ heapPush e l ↔ x = e ∨ x ∈ l)
  | [] => by simp [heapPush]
  | y :: ys => by
    rw [heapPush]
    split
    · simp [List.mem_cons]
    · rw [List.mem_cons, List.mem_cons, mem_heapPush e x ys]
      tauto

theorem length_heapPush (e : Entry) : ∀ l : List Entry, (heapPush e l).length = l.length + 1
  | [] => rfl
  | y :: ys => by
    rw [heapPush]
    split
    · rfl
    · simp [List.length_cons, length_heapPush e ys]

theorem heapPush_sorted (e : Entry) : ∀ {l : List Entry}, PQSorted l → PQSorted (heapPush e l)
  | [], _ => by simp [heapPush, PQSorted]
  | y :: ys, h => by
    rcases List.pairwise_cons.mp h with ⟨hy, hys⟩
    rw [heapPush]
    split
    · next hlt =>
      refine List.pairwise_cons.mpr ⟨?_, h⟩
      intro z hz
      rcases List.mem_cons.mp hz with rfl | hz
      · exact entryLt_weight_le hlt
      · exact le_trans (entryLt_weight_le hlt) (hy z hz)
    · next hlt =>
      refine List.pairwise_cons.mpr ⟨?_, heapPush_sorted e hys⟩
      intro z hz
      rcases (mem_heapPush e z ys).mp hz with rfl | hz
      · exact entryLt_false_weight_le (by simpa using hlt)
      · exact hy z hz

/-! ## Path lemmas -/

theorem isPath_elim {g : Graph} {a b : Loc} {p : List Loc} (h : isPath g a b p = true) :
    ∃ xs, p = a :: xs ∧ chainOK g a xs = true ∧ lastLoc a xs = b := by
  cases p with
  | nil => exact absurd h (by simp [isPath])
  | cons x xs =>
    simp only [isPath, Bool.and_eq_true, decide_eq_true_eq] at h
    exact ⟨xs, by rw [h.1.1], by rw [← h.1.1]; exact h.1.2, by rw [← h.1.1]; exact h.2⟩

theorem isPath_intro (g : Graph) (a b : Loc) (xs : List Loc)
    (h1 : chainOK g a xs = true) (h2 : lastLoc a xs = b) :
    isPath g a b (a :: xs) = true := by
  simp [isPath, h1, h2]

theorem lastLoc_append (v : Loc) : ∀ (tail : List Loc) (a : Loc), lastLoc a (tail ++ [v]) = v
  | [], a => rfl
  | b :: rest, a => lastLoc_append v rest b

theorem chainOK_append (g : Graph) (v : Loc) :
    ∀ (tail : List Loc) (a : Loc),
      chainOK g a (tail ++ [v])
        = (chainOK g a tail && (g.findRoute (lastLoc a tail) v).isSome)
  | [], a => by simp [chainOK, lastLoc]
  | b :: rest, a => by
    show chainOK g a (b :: (rest ++ [v])) = _
    rw [show chainOK g a (b :: (rest ++ [v]))
          = ((g.findRoute a b).isSome && chainOK g b (rest ++ [v])) from rfl,
      chainOK_append g v rest b,
      show chainOK g a (b :: rest) = ((g.findRoute a b).isSome && chainOK g b rest) from rfl,
      show lastLoc a (b :: rest) = lastLoc b rest from rfl,
      Bool.and_assoc]

theorem weightFrom_append (g : Graph) (m : String) (v : Loc) :
    ∀ (tail : List Loc) (a : Loc),
      weightFrom g m a (tail ++ [v])
        = weightFrom g m a tail + edgeW g m (lastLoc a tail) v
  | [], a => by simp [weightFrom, lastLoc]
  | b :: rest, a => by
    show weightFrom g m a (b :: (rest ++ [v])) = _
    rw [show weightFrom g m a (b :: (rest ++ [v]))
          = edgeW g m a b + weightFrom g m b (rest ++ [v]) from rfl,
      weightFrom_append g m v rest b,
      show weightFrom g m a (b :: rest) = edgeW g m a b + weightFrom g m b rest from rfl,
      show lastLoc a (b :: rest) = lastLoc b rest from rfl]
    omega

theorem isPath_append_edge {g : Graph} {a u v : Loc} {p : List Loc}
    (hp : isPath g a u p = true) (he : (g.findRoute u v).isSome = true) :
    isPath g a v (p ++ [v]) = true := by
  obtain ⟨xs, rfl, hchain, hlast⟩ := isPath_elim hp
  rw [List.cons_append]
  refine isPath_intro g a v (xs ++ [v]) ?_ (lastLoc_append v xs a)
  rw [chainOK_append, hchain, hlast, Bool.true_and]
  exact he

theorem pathWeight_append_edge {g : Graph} {m : String} {a u v : Loc} {p : List Loc}
    {r : Route} (hp : isPath g a u p = true) (hr : g.findRoute u v = some r) :
    pathWeight g m (p ++ [v]) = pathWeight g m p + r.get m := by
  obtain ⟨xs, rfl, hchain, hlast⟩ := isPath_elim hp
  rw [List.cons_append, pathWeight, pathWeight, weightFrom_append, hlast]
  simp [edgeW, hr]

/-! ## Neighbour-list lemmas -/

theorem findRoute_mem_neighborsR {g : Graph} {u v : Loc} {r : Route}
    (h : g.findRoute u v = some r) : (v, r) ∈ g.neighborsR u := by
  unfold Graph.findRoute at h
  rcases hf : g.edges.find? (sameEnds u v) with _ | e
  · rw [hf] at h; exact absurd h (by simp)
  · rw [hf] at h
    have her : e.2.2 = r := by simpa using h
    have hmem := List.mem_of_find?_eq_some hf
    have hse := List.find?_some hf
    simp only [sameEnds, Bool.or_eq_true, Bool.and_eq_true, decide_eq_true_eq] at hse
    unfold Graph.neighborsR
    rcases hse with ⟨h1, h2⟩ | ⟨h1, h2⟩
    · exact List.mem_filterMap.mpr ⟨e, hmem, by rw [if_pos h1, h2, her]⟩
    · by_cases huv : v = u
      · refine List.mem_filterMap.mpr ⟨e, hmem, ?_⟩
        rw [if_pos (huv ▸ h1), h2, her, huv]
      · refine List.mem_filterMap.mpr ⟨e, hmem, ?_⟩
        rw [if_neg (by rw [h1]; exact huv), if_pos h2, h1, her]

theorem mem_neighborsR_sameEnds {g : Graph} {u v : Loc} {r : Route}
    (h : (v, r) ∈ g.neighborsR u) :
    ∃ e ∈ g.edges, sameEnds u v e = true ∧ e.2.2 = r := by
  unfold Graph.neighborsR at h
  rcases List.mem_filterMap.mp h with ⟨e, he, hfe⟩
  refine ⟨e, he, ?_⟩
  by_cases h1 : e.1 = u
  · rw [if_pos h1] at hfe
    have h2 : e.2.1 = v ∧ e.2.2 = r := by
      constructor <;> [exact congrArg Prod.fst (Option.some.inj hfe);
        exact congrArg Prod.snd (Option.some.inj hfe)]
    simp [sameEnds, h1, h2.1, h2.2]
  · rw [if_neg h1] at hfe
    by_cases h2 : e.2.1 = u
    · rw [if_pos h2] at hfe
      have h3 : e.1 = v ∧ e.2.2 = r := by
        constructor <;> [exact congrArg Prod.fst (Option.some.inj hfe);
          exact congrArg Prod.snd (Option.some.inj hfe)]
      simp [sameEnds, h2, h3.1, h3.2]
    · rw [if_neg h2] at hfe
      exact absurd hfe (by simp)

/-! ## Well-formedness consequences -/

theorem wf_endpoints {g : Graph} (hwf : g.wf = true) :
    ∀ e ∈ g.edges, e.1 ∈ g.nodeNames ∧ e.2.1 ∈ g.nodeNames := by
  intro e he
  rcases Bool.and_eq_true_iff.mp hwf with ⟨hall, _⟩
  have := List.all_eq_true.mp hall e he
  rcases Bool.and_eq_true_iff.mp this with ⟨h1, h2⟩
  rw [List.contains] at h1 h2
  exact ⟨List.elem_iff.mp h1, List.elem_iff.mp h2⟩

theorem wf_disjoint {g : Graph} (hwf : g.wf = true) : edgesDisjoint g.edges = true :=
  (Bool.and_eq_true_iff.mp hwf).2

/-- Two matches of the same unordered pair also match each other's ends. -/
theorem sameEnds_trans {u v : Loc} {e1 e2 : Loc × Loc × Route}
    (h1 : sameEnds u v e1 = true) (h2 : sameEnds u v e2 = true) :
    sameEnds e1.1 e1.2.1 e2 = true := by
  simp only [sameEnds, Bool.or_eq_true, Bool.and_eq_true, decide_eq_true_eq] at h1 h2 ⊢
  rcases h1 with ⟨ha, hb⟩ | ⟨ha, hb⟩ <;> rcases h2 with ⟨hc, hd⟩ | ⟨hc, hd⟩ <;>
    rw [ha, hb, hc, hd] <;> tauto

/-- Under edge disjointness an unordered pair matches at most one stored edge. -/
theorem disjoint_unique {u v : Loc} :
    ∀ {l : List (Loc × Loc × Route)}, edgesDisjoint l = true →
      ∀ e1 ∈ l, ∀ e2 ∈ l, sameEnds u v e1 = true → sameEnds u v e2 = true → e1 = e2
  | [], _, e1, h1, _, _, _, _ => absurd h1 (by simp)
  | e :: rest, hd, e1, h1, e2, h2, hs1, hs2 => by
    have hd2 : (rest.all (fun x => !(sameEnds e.1 e.2.1 x)) && edgesDisjoint rest) = true := hd
    rcases Bool.and_eq_true_iff.mp hd2 with ⟨hall, hrest⟩
    have hnot : ∀ x ∈ rest, sameEnds e.1 e.2.1 x = false := by
      intro x hx
      have := List.all_eq_true.mp hall x hx
      simpa using this
    rcases List.mem_cons.mp h1 with he1 | he1
    · rcases List.mem_cons.mp h2 with he2 | he2
      · rw [he1, he2]
      · exact absurd (sameEnds_trans hs1 hs2) (by simp [he1 ▸ hnot e2 he2])
    · rcases List.mem_cons.mp h2 with he2 | he2
      · exact absurd (sameEnds_trans hs2 hs1) (by simp [he2 ▸ hnot e1 he1])
      · exact disjoint_unique hrest e1 he1 e2 he2 hs1 hs2

theorem mem_neighborsR_findRoute {g : Graph} {u v : Loc} {r : Route}
    (hwf : g.wf = true) (h : (v, r) ∈ g.neighborsR u) :
    g.findRoute u v = some r := by
  rcases mem_neighborsR_sameEnds h with ⟨e, he, hse, her⟩
  have hany : g.edges.any (sameEnds u v) = true := List.any_eq_true.mpr ⟨e, he, hse⟩
  have hsome : (g.findRoute u v).isSome = true := by rw [findRoute_isSome_any]; exact hany
  rcases hf : g.findRoute u v with _ | r0
  · rw [hf] at hsome; exact absurd hsome (by simp)
  · unfold Graph.findRoute at hf
    rcases hf2 : g.edges.find? (sameEnds u v) with _ | e0
    · rw [hf2] at hf; exact absurd hf (by simp)
    · rw [hf2] at hf
      have he0r : e0.2.2 = r0 := by simpa using hf
      have : e0 = e := disjoint_unique (wf_disjoint hwf)
        e0 (List.mem_of_find?_eq_some hf2) e he (List.find?_some hf2) hse
      rw [← her, ← this, he0r]

theorem mem_neighborsR_node {g : Graph} {u v : Loc} {r : Route}
    (hwf : g.wf = true) (h : (v, r) ∈ g.neighborsR u) : v ∈ g.nodeNames := by
  rcases mem_neighborsR_sameEnds h with ⟨e, he, hse, _⟩
  rcases wf_endpoints hwf e he with ⟨h1, h2⟩
  simp only [sameEnds, Bool.or_eq_true, Bool.and_eq_true, decide_eq_true_eq] at hse
  rcases hse with ⟨_, hb⟩ | ⟨ha, _⟩
  · exact hb ▸ h2
  · exact ha ▸ h1

theorem neighborsR_length_le (g : Graph) (u : Loc) :
    (g.neighborsR u).length ≤ g.edges.length :=
  List.length_filterMap_le _ _

theorem findRoute_endpoints_mem {g : Graph} {u v : Loc}
    (hwf : g.wf = true) (h : (g.findRoute u v).isSome = true) :
    u ∈ g.nodeNames ∧ v ∈ g.nodeNames := by
  rw [findRoute_isSome_any] at h
  rcases List.any_eq_true.mp h with ⟨e, he, hse⟩
  rcases wf_endpoints hwf e he with ⟨h1, h2⟩
  simp only [sameEnds, Bool.or_eq_true, Bool.and_eq_true, decide_eq_true_eq] at hse
  rcases hse with ⟨ha, hb⟩ | ⟨ha, hb⟩
  · exact ⟨ha ▸ h1, hb ▸ h2⟩
  · exact ⟨hb ▸ h2, ha ▸ h1⟩

/-! ## Loop invariant of the Dijkstra embedding -/

/-- The invariant maintained by the `while pq:` loop.  Queue entries hold real
paths with their exact weights; the distance table is sound and linked to the
queue; visited nodes carry finalised minimal distances and have all their
incident edges relaxed. -/
structure DInv (g : Graph) (m : String) (start : Loc)
    (pq : List Entry) (visited : List Loc) (dist : Loc → Option Nat) : Prop where
  entries_path : ∀ e ∈ pq, isPath g start e.2.1 e.2.2 = true
  entries_weight : ∀ e ∈ pq, pathWeight g m e.2.2 = e.1
  entries_node : ∀ e ∈ pq, e.2.1 ∈ g.nodeNames
  dist_sound : ∀ v d, dist v = some d →
    ∃ p, isPath g start v p = true ∧ pathWeight g m p = d
  dist_pq : ∀ v d, ¬ v ∈ visited → dist v = some d → ∃ e ∈ pq, e.2.1 = v ∧ e.1 ≤ d
  pq_dist : ∀ e ∈ pq, ¬ e.2.1 ∈ visited → ∃ d, dist e.2.1 = some d ∧ d ≤ e.1
  dist_start : dist start = some 0
  visited_min : ∀ u ∈ visited, ∃ d, dist u = some d ∧
    ∀ q, isPath g start u q = true → d ≤ pathWeight g m q
  visited_relaxed : ∀ u ∈ visited, ∀ x ∈ g.neighborsR u, ∃ du dv,
    dist u = some du ∧ dist x.1 = some dv ∧ dv ≤ du + x.2.get m

/-- Walking from a visited node along a chain that leaves the visited set,
some queue entry for an unvisited node undercuts the weight accumulated up to
that node. -/
theorem frontier_chain (g : Graph) (m : String) (start : Loc)
    (pq : List Entry) (visited : List Loc) (dist : Loc → Option Nat)
    (hinv : DInv g m start pq visited dist) :
    ∀ (tail : List Loc) (a : Loc), a ∈ visited → ∀ da, dist a = some da →
      chainOK g a tail = true → ¬ lastLoc a tail ∈ visited →
      ∃ e ∈ pq, ¬ e.2.1 ∈ visited ∧ e.1 ≤ da + weightFrom g m a tail
  | [], a, hav, da, hda, _, hlast => absurd hav (by simpa [lastLoc] using hlast)
  | b :: rest, a, hav, da, hda, hchain, hlast => by
    have hchain2 : ((g.findRoute a b).isSome && chainOK g b rest) = true := hchain
    rcases Bool.and_eq_true_iff.mp hchain2 with ⟨hab, hbrest⟩
    rcases hr : g.findRoute a b with _ | r
    · rw [hr] at hab; exact absurd hab (by simp)
    · have hbnb : (b, r) ∈ g.neighborsR a := findRoute_mem_neighborsR hr
      obtain ⟨da2, dv, hda2, hdv, hle⟩ := hinv.visited_relaxed a hav (b, r) hbnb
      have hle2 : dv ≤ da2 + r.get m := hle
      have hda2eq : da2 = da := by rw [hda] at hda2; exact (Option.some.inj hda2).symm
      have hW : weightFrom g m a (b :: rest) = r.get m + weightFrom g m b rest := by
        show edgeW g m a b + _ = _
        rw [edgeW, hr]
      have hlast2 : ¬ lastLoc b rest ∈ visited := by
        simpa [lastLoc] using hlast
      by_cases hbv : b ∈ visited
      · obtain ⟨e, he, hne, hwe⟩ :=
          frontier_chain g m start pq visited dist hinv rest b hbv dv hdv hbrest hlast2
        refine ⟨e, he, hne, ?_⟩
        rw [hW]
        omega
      · obtain ⟨e, he, heq, hwe⟩ := hinv.dist_pq b dv hbv hdv
        refine ⟨e, he, by rw [heq]; exact hbv, ?_⟩
        rw [hW]
        omega

/-- Any path from `start` to an unvisited node is undercut by some queue
entry for an unvisited node. -/
theorem frontier_entry (g : Graph) (m : String) (start : Loc)
    (pq : List Entry) (visited : List Loc) (dist : Loc → Option Nat)
    (hinv : DInv g m start pq visited dist)
    (z : Loc) (hz : ¬ z ∈ visited) (q : List Loc) (hq : isPath g start z q = true) :
    ∃ e ∈ pq, ¬ e.2.1 ∈ visited ∧ e.1 ≤ pathWeight g m q := by
  obtain ⟨xs, rfl, hchain, hlast⟩ := isPath_elim hq
  by_cases hsv : start ∈ visited
  · have := frontier_chain g m start pq visited dist hinv xs start hsv 0
      hinv.dist_start hchain (by rw [hlast]; exact hz)
    simpa [pathWeight] using this
  · obtain ⟨e, he, heq, hwe⟩ := hinv.dist_pq start 0 hsv hinv.dist_start
    exact ⟨e, he, by rw [heq]; exact hsv, by omega⟩

/-- The popped head of the queue weighs no more than any path from `start` to
any unvisited node: the key Dijkstra argument. -/
theorem head_min (g : Graph) (m : String) (start : Loc)
    (e : Entry) (pq : List Entry) (visited : List Loc) (dist : Loc → Option Nat)
    (hinv : DInv g m start (e :: pq) visited dist)
    (hsort : PQSorted (e :: pq))
    (z : Loc) (hz : ¬ z ∈ visited) (q : List Loc) (hq : isPath g start z q = true) :
    e.1 ≤ pathWeight g m q := by
  obtain ⟨e2, he2, _, hwe2⟩ :=
    frontier_entry g m start (e :: pq) visited dist hinv z hz q hq
  rcases List.mem_cons.mp he2 with rfl | he2
  · exact hwe2
  · exact le_trans ((List.pairwise_cons.mp hsort).1 e2 he2) hwe2

/-! ## Relaxation-loop lemmas -/

theorem ltInf_lt {x d : Nat} (h : ltInf x (some d) = true) : x < d := by
  simpa [ltInf] using h

theorem ltInf_false {x : Nat} {o : Option Nat} (h : ltInf x o = false) :
    ∃ d, o = some d ∧ d ≤ x := by
  cases o with
  | none => exact absurd h (by simp [ltInf])
  | some d =>
    refine ⟨d, rfl, ?_⟩
    have : ¬ x < d := by simpa [ltInf] using h
    omega

theorem relaxAll_pq_mono (m : String) (w : Nat) (p : List Loc) (visited : List Loc) :
    ∀ (ns : List (Loc × Route)) (dist : Loc → Option Nat) (pq : List Entry),
      ∀ e ∈ pq, e ∈ (relaxAll m w p visited ns dist pq).2
  | [], _, _, _, he => he
  | (v, r) :: rest, dist, pq, e, he => by
    rw [relaxAll]
    split
    · exact relaxAll_pq_mono m w p visited rest dist pq e he
    · split
      · exact relaxAll_pq_mono m w p visited rest _ _ e
          ((mem_heapPush _ e _).mpr (.inr he))
      · exact relaxAll_pq_mono m w p visited rest dist pq e he

theorem relaxAll_pq_src (m : String) (w : Nat) (p : List Loc) (visited : List Loc) :
    ∀ (ns : List (Loc × Route)) (dist : Loc → Option Nat) (pq : List Entry),
      ∀ e ∈ (relaxAll m w p visited ns dist pq).2,
        e ∈ pq ∨ ∃ v r, (v, r) ∈ ns ∧ ¬ v ∈ visited ∧ e = (w + r.get m, v, p ++ [v])
  | [], _, _, _, he => .inl he
  | (v, r) :: rest, dist, pq, e, he => by
    rw [relaxAll] at he
    split at he
    · rcases relaxAll_pq_src m w p visited rest dist pq e he with h1 | ⟨v2, r2, h2, h3, h4⟩
      · exact .inl h1
      · exact .inr ⟨v2, r2, List.mem_cons_of_mem _ h2, h3, h4⟩
    · split at he
      · next hv hlt =>
        rcases relaxAll_pq_src m w p visited rest _ _ e he with h1 | ⟨v2, r2, h2, h3, h4⟩
        · rcases (mem_heapPush _ e _).mp h1 with rfl | h1
          · exact .inr ⟨v, r, List.mem_cons_self _ _, hv, rfl⟩
          · exact .inl h1
        · exact .inr ⟨v2, r2, List.mem_cons_of_mem _ h2, h3, h4⟩
      · rcases relaxAll_pq_src m w p visited rest dist pq e he with h1 | ⟨v2, r2, h2, h3, h4⟩
        · exact .inl h1
        · exact .inr ⟨v2, r2, List.mem_cons_of_mem _ h2, h3, h4⟩

theorem relaxAll_sorted (m : String) (w : Nat) (p : List Loc) (visited : List Loc) :
    ∀ (ns : List (Loc × Route)) (dist : Loc → Option Nat) (pq : List Entry),
      PQSorted pq → PQSorted (relaxAll m w p visited ns dist pq).2
  | [], _, _, hs => hs
  | (v, r) :: rest, dist, pq, hs => by
    rw [relaxAll]
    split
    · exact relaxAll_sorted m w p visited rest dist pq hs
    · split
      · exact relaxAll_sorted m w p visited rest _ _ (heapPush_sorted _ hs)
      · exact relaxAll_sorted m w p visited rest dist pq hs

theorem relaxAll_length (m : String) (w : Nat) (p : List Loc) (visited : List Loc) :
    ∀ (ns : List (Loc × Route)) (dist : Loc → Option Nat) (pq : List Entry),
      (relaxAll m w p visited ns dist pq).2.length ≤ pq.length + ns.length
  | [], _, pq => le_refl _
  | (v, r) :: rest, dist, pq => by
    rw [relaxAll]
    split
    · exact le_trans (relaxAll_length m w p visited rest dist pq) (by simp)
    · split
      · have := relaxAll_length m w p visited rest
          (fun x => if x = v then some (w + r.get m) else dist x)
          (heapPush (w + r.get m, v, p ++ [v]) pq)
        rw [length_heapPush] at this
        exact le_trans this (by simp [List.length_cons]; omega)
      · exact le_trans (relaxAll_length m w p visited rest dist pq) (by simp)

theorem relaxAll_dist (m : String) (w : Nat) (p : List Loc) (visited : List Loc) :
    ∀ (ns : List (Loc × Route)) (dist : Loc → Option Nat) (pq : List Entry) (v : Loc),
      (relaxAll m w p visited ns dist pq).1 v = dist v ∨
      (¬ v ∈ visited ∧ ∃ r, (v, r) ∈ ns ∧
        (relaxAll m w p visited ns dist pq).1 v = some (w + r.get m) ∧
        ∀ d0, dist v = some d0 → w + r.get m < d0)
  | [], _, _, _ => .inl rfl
  | (v0, r0) :: rest, dist, pq, v => by
    rw [relaxAll]
    split
    · rcases relaxAll_dist m w p visited rest dist pq v with h1 | ⟨h1, r2, h2, h3, h4⟩
      · exact .inl h1
      · exact .inr ⟨h1, r2, List.mem_cons_of_mem _ h2, h3, h4⟩
    · split
      · next hv0 hlt =>
        rcases relaxAll_dist m w p visited rest
            (fun x => if x = v0 then some (w + r0.get m) else dist x)
            (heapPush (w + r0.get m, v0, p ++ [v0]) pq) v with h1 | ⟨h1, r2, h2, h3, h4⟩
        · by_cases hvv : v = v0
          · subst hvv
            refine .inr ⟨hv0, r0, List.mem_cons_self _ _, by rw [h1]; simp, ?_⟩
            intro d0 hd0
            rw [hd0] at hlt
            exact ltInf_lt hlt
          · exact .inl (by rw [h1]; simp [hvv])
        · refine .inr ⟨h1, r2, List.mem_cons_of_mem _ h2, h3, ?_⟩
          intro d0 hd0
          by_cases hvv : v = v0
          · subst hvv
            have hstep : w + r2.get m < w + r0.get m := h4 _ (by simp)
            rw [hd0] at hlt
            exact lt_trans hstep (ltInf_lt hlt)
          · exact h4 d0 (by simp [hvv, hd0])
      · rcases relaxAll_dist m w p visited rest dist pq v with h1 | ⟨h1, r2, h2, h3, h4⟩
        · exact .inl h1
        · exact .inr ⟨h1, r2, List.mem_cons_of_mem _ h2, h3, h4⟩

theorem relaxAll_dist_le (m : String) (w : Nat) (p : List Loc) (visited : List Loc)
    (ns : List (Loc × Route)) (dist : Loc → Option Nat) (pq : List Entry)
    (v : Loc) (d0 : Nat) (h : dist v = some d0) :
    ∃ d1, (relaxAll m w p visited ns dist pq).1 v = some d1 ∧ d1 ≤ d0 := by
  rcases relaxAll_dist m w p visited ns dist pq v with h1 | ⟨_, r, _, hres, hstrict⟩
  · exact ⟨d0, by rw [h1, h], le_refl d0⟩
  · exact ⟨w + r.get m, hres, le_of_lt (hstrict d0 h)⟩

theorem relaxAll_relaxed (m : String) (w : Nat) (p : List Loc) (visited : List Loc) :
    ∀ (ns : List (Loc × Route)) (dist : Loc → Option Nat) (pq : List Entry)
      (v : Loc) (r : Route), (v, r) ∈ ns → ¬ v ∈ visited →
      ∃ dv, (relaxAll m w p visited ns dist pq).1 v = some dv ∧ dv ≤ w + r.get m
  | [], _, _, _, _, hmem, _ => absurd hmem (by simp)
  | (v0, r0) :: rest, dist, pq, v, r, hmem, hnv => by
    rcases List.mem_cons.mp hmem with heq | hmem2
    · have hv : v = v0 := congrArg Prod.fst heq
      have hr : r = r0 := congrArg Prod.snd heq
      subst hv
      subst hr
      rw [relaxAll]
      split
      · next hv0 => exact absurd hv0 hnv
      · split
        · next hlt =>
          rcases relaxAll_dist_le m w p visited rest
            (fun x => if x = v then some (w + r.get m) else dist x)
            (heapPush (w + r.get m, v, p ++ [v]) pq) v (w + r.get m) (by simp)
            with ⟨d1, hres, hle⟩
          exact ⟨d1, hres, hle⟩
        · next hlt =>
          rcases ltInf_false (by simpa using hlt) with ⟨d0, hd0, hle⟩
          rcases relaxAll_dist_le m w p visited rest dist pq v d0 hd0 with ⟨d1, hres, hle2⟩
          exact ⟨d1, hres, le_trans hle2 hle⟩
    · rw [relaxAll]
      split
      · exact relaxAll_relaxed m w p visited rest dist pq v r hmem2 hnv
      · split
        · exact relaxAll_relaxed m w p visited rest _ _ v r hmem2 hnv
        · exact relaxAll_relaxed m w p visited rest dist pq v r hmem2 hnv

theorem relaxAll_changed (m : String) (w : Nat) (p : List Loc) (visited : List Loc) :
    ∀ (ns : List (Loc × Route)) (dist : Loc → Option Nat) (pq : List Entry) (v : Loc),
      (relaxAll m w p visited ns dist pq).1 v ≠ dist v →
      ∃ e ∈ (relaxAll m w p visited ns dist pq).2, e.2.1 = v ∧
        some e.1 = (relaxAll m w p visited ns dist pq).1 v
  | [], _, _, _, h => absurd rfl h
  | (v0, r0) :: rest, dist, pq, v, h => by
    rw [relaxAll] at h ⊢
    by_cases hv0 : v0 ∈ visited
    · rw [if_pos hv0] at h ⊢
      exact relaxAll_changed m w p visited rest dist pq v h
    · rw [if_neg hv0] at h ⊢
      by_cases hlt : ltInf (w + r0.get m) (dist v0) = true
      · rw [if_pos hlt] at h ⊢
        by_cases hch : (relaxAll m w p visited rest
            (fun x => if x = v0 then some (w + r0.get m) else dist x)
            (heapPush (w + r0.get m, v0, p ++ [v0]) pq)).1 v
            = (fun x => if x = v0 then some (w + r0.get m) else dist x) v
        · have hvv0 : v = v0 := by
            by_contra hne
            exact h (by rw [hch]; simp [hne])
          subst hvv0
          refine ⟨(w + r0.get m, v, p ++ [v]), ?_, rfl, ?_⟩
          · exact relaxAll_pq_mono m w p visited rest _ _ _
              ((mem_heapPush _ _ _).mpr (.inl rfl))
          · rw [hch]; simp
        · exact relaxAll_changed m w p visited rest _ _ v hch
      · rw [if_neg hlt] at h ⊢
        exact relaxAll_changed m w p visited rest dist pq v h

/-! ## Loop potential -/

/-- Sum of the degrees of the unvisited nodes; together with the queue length
this strictly decreases at every loop iteration. -/
def degSum (g : Graph) (visited : List Loc) : Nat :=
  ((g.nodeNames.filter (fun v => decide (¬ v ∈ visited))).map
    (fun v => (g.neighborsR v).length)).sum

def Phi (g : Graph) (pq : List Entry) (visited : List Loc) : Nat :=
  pq.length + degSum g visited

theorem sum_filter_mono (f : Loc → Nat) (u : Loc) (visited : List Loc) :
    ∀ L : List Loc,
      ((L.filter (fun v => decide (¬ v ∈ u :: visited))).map f).sum ≤
      ((L.filter (fun v => decide (¬ v ∈ visited))).map f).sum
  | [] => le_refl 0
  | x :: L2 => by
    have ih := sum_filter_mono f u visited L2
    rw [List.filter_cons, List.filter_cons]
    by_cases h1 : x ∈ u :: visited
    · rw [if_neg (by simp [h1])]
      by_cases h2 : x ∈ visited
      · rw [if_neg (by simp [h2])]
        exact ih
      · rw [if_pos (by simp [h2])]
        simp only [List.map_cons, List.sum_cons]
        omega
    · have h2 : ¬ x ∈ visited := fun hx => h1 (List.mem_cons_of_mem _ hx)
      rw [if_pos (by simp [h1]), if_pos (by simp [h2])]
      simp only [List.map_cons, List.sum_cons]
      omega

theorem sum_filter_visit (f : Loc → Nat) (u : Loc) (visited : List Loc)
    (hnv : ¬ u ∈ visited) :
    ∀ L : List Loc, u ∈ L →
      ((L.filter (fun v => decide (¬ v ∈ u :: visited))).map f).sum + f u ≤
      ((L.filter (fun v => decide (¬ v ∈ visited))).map f).sum
  | [], hmem => absurd hmem (by simp)
  | x :: L2, hmem => by
    rw [List.filter_cons, List.filter_cons]
    by_cases hxu : x = u
    · subst hxu
      rw [if_neg (by simp), if_pos (by simp [hnv])]
      simp only [List.map_cons, List.sum_cons]
      have := sum_filter_mono f x visited L2
      omega
    · have hmem2 : u ∈ L2 := by
        rcases List.mem_cons.mp hmem with h | h
        · exact absurd h.symm hxu
        · exact h
      have ih := sum_filter_visit f u visited hnv L2 hmem2
      by_cases hxv : x ∈ visited
      · rw [if_neg (by simp [List.mem_cons_of_mem u hxv]), if_neg (by simp [hxv])]
        exact ih
      · have hx1 : ¬ x ∈ u :: visited := by
          intro hx
          rcases List.mem_cons.mp hx with h | h
          · exact hxu h
          · exact hxv h
        rw [if_pos (by simp [hx1]), if_pos (by simp [hxv])]
        simp only [List.map_cons, List.sum_cons]
        omega

theorem degSum_visit (g : Graph) (u : Loc) (visited : List Loc)
    (hu : u ∈ g.nodeNames) (hnv : ¬ u ∈ visited) :
    degSum g (u :: visited) + (g.neighborsR u).length ≤ degSum g visited :=
  sum_filter_visit (fun v => (g.neighborsR v).length) u visited hnv g.nodeNames hu

theorem sum_filter_map_le (f : Loc → Nat) (c : Nat) (hf : ∀ v, f v ≤ c)
    (pred : Loc → Bool) :
    ∀ L : List Loc, ((L.filter pred).map f).sum ≤ L.length * c
  | [] => by simp
  | x :: L2 => by
    have ih := sum_filter_map_le f c hf pred L2
    have hx := hf x
    rw [List.filter_cons, List.length_cons, Nat.succ_mul]
    split
    · simp only [List.map_cons, List.sum_cons]
      omega
    · omega

theorem Phi_init_lt (g : Graph) (start : Loc) :
    Phi g [(0, start, [start])] [] < dijkstraFuel g := by
  have h1 : degSum g [] ≤ g.nodes.length * g.edges.length := by
    have := sum_filter_map_le (fun v => (g.neighborsR v).length) g.edges.length
      (fun v => neighborsR_length_le g v) (fun v => decide (¬ v ∈ ([] : List Loc)))
      g.nodeNames
    simpa [Graph.nodeNames, degSum] using this
  show 1 + degSum g [] < g.nodes.length * (g.edges.length + 1) + 2
  rw [Nat.mul_succ]
  omega

/-! ## The finalisation step preserves the invariant -/

theorem step_inv (g : Graph) (m : String) (start : Loc) (hwf : g.wf = true)
    (w : Nat) (u : Loc) (p : List Loc)
    (pq : List Entry) (visited : List Loc) (dist : Loc → Option Nat)
    (hinv : DInv g m start ((w, u, p) :: pq) visited dist)
    (hsort : PQSorted ((w, u, p) :: pq))
    (hu : ¬ u ∈ visited) :
    DInv g m start (relaxAll m w p (u :: visited) (g.neighborsR u) dist pq).2
      (u :: visited) (relaxAll m w p (u :: visited) (g.neighborsR u) dist pq).1 := by
  have hhead : (w, u, p) ∈ (w, u, p) :: pq := List.mem_cons_self _ _
  have hppath : isPath g start u p = true := hinv.entries_path _ hhead
  have hpweight : pathWeight g m p = w := hinv.entries_weight _ hhead
  have hmin : ∀ q, isPath g start u q = true → w ≤ pathWeight g m q := fun q hq =>
    head_min g m start (w, u, p) pq visited dist hinv hsort u hu q hq
  obtain ⟨du, hdu, hduw⟩ := hinv.pq_dist _ hhead hu
  obtain ⟨pu, hpu, hpuw⟩ := hinv.dist_sound u du hdu
  have hwdu : du = w := le_antisymm hduw (hpuw ▸ hmin pu hpu)
  have hdistu : dist u = some w := by rw [hdu, hwdu]
  have hunch : ∀ x, x ∈ u :: visited →
      (relaxAll m w p (u :: visited) (g.neighborsR u) dist pq).1 x = dist x := by
    intro x hx
    rcases relaxAll_dist m w p (u :: visited) (g.neighborsR u) dist pq x with h1 | ⟨h1, _⟩
    · exact h1
    · exact absurd hx h1
  have hRDu : (relaxAll m w p (u :: visited) (g.neighborsR u) dist pq).1 u = some w := by
    rw [hunch u (List.mem_cons_self _ _), hdistu]
  refine
    { entries_path := ?_, entries_weight := ?_, entries_node := ?_,
      dist_sound := ?_, dist_pq := ?_, pq_dist := ?_, dist_start := ?_,
      visited_min := ?_, visited_relaxed := ?_ }
  · -- entries_path
    intro e he
    rcases relaxAll_pq_src m w p (u :: visited) (g.neighborsR u) dist pq e he with
      hold | ⟨v, r, hvr, _, rfl⟩
    · exact hinv.entries_path e (List.mem_cons_of_mem _ hold)
    · exact isPath_append_edge hppath (by rw [mem_neighborsR_findRoute hwf hvr]; rfl)
  · -- entries_weight
    intro e he
    rcases relaxAll_pq_src m w p (u :: visited) (g.neighborsR u) dist pq e he with
      hold | ⟨v, r, hvr, _, rfl⟩
    · exact hinv.entries_weight e (List.mem_cons_of_mem _ hold)
    · show pathWeight g m (p ++ [v]) = w + r.get m
      rw [pathWeight_append_edge hppath (mem_neighborsR_findRoute hwf hvr), hpweight]
  · -- entries_node
    intro e he
    rcases relaxAll_pq_src m w p (u :: visited) (g.neighborsR u) dist pq e he with
      hold | ⟨v, r, hvr, _, rfl⟩
    · exact hinv.entries_node e (List.mem_cons_of_mem _ hold)
    · exact mem_neighborsR_node hwf hvr
  · -- dist_sound
    intro v d hvd
    rcases relaxAll_dist m w p (u :: visited) (g.neighborsR u) dist pq v with
      h1 | ⟨_, r, hvr, hres, _⟩
    · exact hinv.dist_sound v d (by rw [← h1, hvd])
    · rw [hvd] at hres
      refine ⟨p ++ [v], isPath_append_edge hppath
        (by rw [mem_neighborsR_findRoute hwf hvr]; rfl), ?_⟩
      rw [pathWeight_append_edge hppath (mem_neighborsR_findRoute hwf hvr), hpweight]
      exact (Option.some.inj hres).symm
  · -- dist_pq
    intro v d hvv hvd
    by_cases hch : (relaxAll m w p (u :: visited) (g.neighborsR u) dist pq).1 v = dist v
    · rw [hch] at hvd
      have hvnv : ¬ v ∈ visited := fun hx => hvv (List.mem_cons_of_mem _ hx)
      obtain ⟨e, he, heq, hwe⟩ := hinv.dist_pq v d hvnv hvd
      rcases List.mem_cons.mp he with rfl | he
      · exact absurd (by rw [← heq]; exact List.mem_cons_self _ _) hvv
      · exact ⟨e, relaxAll_pq_mono m w p (u :: visited) (g.neighborsR u) dist pq e he,
          heq, hwe⟩
    · obtain ⟨e, he, heq, hwe⟩ :=
        relaxAll_changed m w p (u :: visited) (g.neighborsR u) dist pq v hch
      rw [hvd] at hwe
      exact ⟨e, he, heq, le_of_eq (Option.some.inj hwe)⟩
  · -- pq_dist
    intro e he hne
    rcases relaxAll_pq_src m w p (u :: visited) (g.neighborsR u) dist pq e he with
      hold | ⟨v, r, hvr, hnv, rfl⟩
    · have hnev : ¬ e.2.1 ∈ visited := fun hx => hne (List.mem_cons_of_mem _ hx)
      obtain ⟨d, hd, hde⟩ := hinv.pq_dist e (List.mem_cons_of_mem _ hold) hnev
      obtain ⟨d1, hres, hle⟩ :=
        relaxAll_dist_le m w p (u :: visited) (g.neighborsR u) dist pq e.2.1 d hd
      exact ⟨d1, hres, le_trans hle hde⟩
    · obtain ⟨dv, hres, hle⟩ :=
        relaxAll_relaxed m w p (u :: visited) (g.neighborsR u) dist pq v r hvr hnv
      exact ⟨dv, hres, hle⟩
  · -- dist_start
    rcases relaxAll_dist m w p (u :: visited) (g.neighborsR u) dist pq start with
      h1 | ⟨_, r, _, _, hstrict⟩
    · rw [h1]; exact hinv.dist_start
    · exact absurd (hstrict 0 hinv.dist_start) (by omega)
  · -- visited_min
    intro a ha
    rcases List.mem_cons.mp ha with rfl | ha
    · exact ⟨w, hRDu, hmin⟩
    · obtain ⟨d, hd, hdm⟩ := hinv.visited_min a ha
      exact ⟨d, by rw [hunch a (List.mem_cons_of_mem _ ha)]; exact hd, hdm⟩
  · -- visited_relaxed
    intro a ha x hx
    rcases List.mem_cons.mp ha with rfl | ha
    · by_cases hvv : x.1 ∈ a :: visited
      · rcases List.mem_cons.mp hvv with hvu | hvis
        · refine ⟨w, w, hRDu, ?_, by omega⟩
          rw [hvu]
          exact hRDu
        · obtain ⟨dv, hdv, hdvm⟩ := hinv.visited_min x.1 hvis
          refine ⟨w, dv, hRDu, ?_, ?_⟩
          · rw [hunch x.1 (List.mem_cons_of_mem _ hvis)]
            exact hdv
          · have hfr : g.findRoute a x.1 = some x.2 := mem_neighborsR_findRoute hwf hx
            have := hdvm (p ++ [x.1]) (isPath_append_edge hppath (by rw [hfr]; rfl))
            rw [pathWeight_append_edge hppath hfr, hpweight] at this
            exact this
      · obtain ⟨dv, hres, hle⟩ :=
          relaxAll_relaxed m w p (a :: visited) (g.neighborsR a) dist pq x.1 x.2 hx hvv
        exact ⟨w, dv, hRDu, hres, hle⟩
    · obtain ⟨da, dv, hda, hdv, hle⟩ := hinv.visited_relaxed a ha x hx
      obtain ⟨d1, hres, hle2⟩ :=
        relaxAll_dist_le m w p (u :: visited) (g.neighborsR u) dist pq x.1 dv hdv
      refine ⟨da, d1, ?_, hres, by omega⟩
      rw [hunch a (List.mem_cons_of_mem _ ha)]
      exact hda

/-- Dropping an already-visited head entry preserves the invariant. -/
theorem DInv_tail (g : Graph) (m : String) (start : Loc)
    (e : Entry) (pq : List Entry) (visited : List Loc) (dist : Loc → Option Nat)
    (hinv : DInv g m start (e :: pq) visited dist) (he : e.2.1 ∈ visited) :
    DInv g m start pq visited dist := by
  refine
    { entries_path := fun x hx => hinv.entries_path x (List.mem_cons_of_mem _ hx),
      entries_weight := fun x hx => hinv.entries_weight x (List.mem_cons_of_mem _ hx),
      entries_node := fun x hx => hinv.entries_node x (List.mem_cons_of_mem _ hx),
      dist_sound := hinv.dist_sound,
      dist_pq := ?_,
      pq_dist := fun x hx => hinv.pq_dist x (List.mem_cons_of_mem _ hx),
      dist_start := hinv.dist_start,
      visited_min := hinv.visited_min,
      visited_relaxed := hinv.visited_relaxed }
  intro v d hnv hvd
  obtain ⟨e2, he2, heq, hwe⟩ := hinv.dist_pq v d hnv hvd
  rcases List.mem_cons.mp he2 with rfl | he2
  · exact absurd (heq ▸ he) hnv
  · exact ⟨e2, he2, heq, hwe⟩

/-- Correctness of the `while pq:` loop: from an invariant state with enough
fuel, the loop returns an optimal found path exactly when the target is
reachable, and the `(None, inf)` sentinel otherwise. -/
theorem dijkstraLoop_spec (g : Graph) (m : String) (start endl : Loc)
    (hwf : g.wf = true) :
    ∀ (fuel : Nat) (pq : List Entry) (visited : List Loc) (dist : Loc → Option Nat),
      DInv g m start pq visited dist → PQSorted pq →
      Phi g pq visited < fuel → ¬ endl ∈ visited →
      (Reachable g start endl →
        ∃ pp ww, dijkstraLoop g endl m fuel pq visited dist = .found pp ww ∧
          isPath g start endl pp = true ∧ pathWeight g m pp = ww ∧
          ∀ q, isPath g start endl q = true → ww ≤ pathWeight g m q) ∧
      (¬ Reachable g start endl →
        dijkstraLoop g endl m fuel pq visited dist = .notFound) := by
  intro fuel
  induction fuel with
  | zero =>
    intro pq visited dist _ _ hphi _
    omega
  | succ f ih =>
    intro pq visited dist hinv hsort hphi hendl
    match pq with
    | [] =>
      constructor
      · rintro ⟨q, hq⟩
        obtain ⟨e, he, _, _⟩ :=
          frontier_entry g m start [] visited dist hinv endl hendl q hq
        exact absurd he (by simp)
      · intro _
        rfl
    | (w, u, p) :: rest =>
      by_cases hu : u ∈ visited
      · have h1 : dijkstraLoop g endl m (f + 1) ((w, u, p) :: rest) visited dist
            = dijkstraLoop g endl m f rest visited dist := by
          rw [dijkstraLoop, if_pos hu]
        rw [h1]
        refine ih rest visited dist (DInv_tail g m start (w, u, p) rest visited dist hinv hu)
          hsort.of_cons ?_ hendl
        have h2 : Phi g ((w, u, p) :: rest) visited = Phi g rest visited + 1 := by
          simp [Phi, List.length_cons]
          omega
        omega
      · by_cases huend : u = endl
        · subst huend
          have h1 : dijkstraLoop g u m (f + 1) ((w, u, p) :: rest) visited dist
              = .found p w := by
            rw [dijkstraLoop, if_neg hu, if_pos rfl]
          have hpath : isPath g start u p = true :=
            hinv.entries_path _ (List.mem_cons_self _ _)
          constructor
          · intro _
            exact ⟨p, w, h1, hpath,
              hinv.entries_weight _ (List.mem_cons_self _ _),
              fun q hq => head_min g m start (w, u, p) rest visited dist hinv hsort u hu q hq⟩
          · intro hnr
            exact absurd ⟨p, hpath⟩ hnr
        · have hu_node : u ∈ g.nodeNames := hinv.entries_node _ (List.mem_cons_self _ _)
          have h1 : dijkstraLoop g endl m (f + 1) ((w, u, p) :: rest) visited dist
              = dijkstraLoop g endl m f
                  (relaxAll m w p (u :: visited) (g.neighborsR u) dist rest).2
                  (u :: visited)
                  (relaxAll m w p (u :: visited) (g.neighborsR u) dist rest).1 := by
            rw [dijkstraLoop, if_neg hu, if_neg huend,
              if_pos ((hasNode_mem g u).mpr hu_node)]
          rw [h1]
          refine ih _ _ _
            (step_inv g m start hwf w u p rest visited dist hinv hsort hu)
            (relaxAll_sorted m w p (u :: visited) (g.neighborsR u) dist rest hsort.of_cons)
            ?_ ?_
          · have h2 := relaxAll_length m w p (u :: visited) (g.neighborsR u) dist rest
            have h3 := degSum_visit g u visited hu_node hu
            have h4 : Phi g ((w, u, p) :: rest) visited
                = rest.length + 1 + degSum g visited := by
              simp [Phi, List.length_cons]
            have h5 : Phi g (relaxAll m w p (u :: visited) (g.neighborsR u) dist rest).2
                (u :: visited)
                = (relaxAll m w p (u :: visited) (g.neighborsR u) dist rest).2.length
                  + degSum g (u :: visited) := rfl
            omega
          · intro hx
            rcases List.mem_cons.mp hx with hx1 | hx2
            · exact huend hx1.symm
            · exact hendl hx2

/-- Full behaviour of `dijkstra` from a present start location: an optimal
found path for reachable targets, the `(None, inf)` sentinel otherwise. -/
theorem dijkstra_correct (g : Graph) (m : String) (start endl : Loc)
    (hwf : g.wf = true) (hstart : start ∈ g.nodeNames) :
    (Reachable g start endl →
      ∃ pp ww, dijkstra g start endl m = .found pp ww ∧
        isPath g start endl pp = true ∧ pathWeight g m pp = ww ∧
        ∀ q, isPath g start endl q = true → ww ≤ pathWeight g m q) ∧
    (¬ Reachable g start endl → dijkstra g start endl m = .notFound) := by
  have hinv0 : DInv g m start [(0, start, [start])] []
      (fun v => if v = start then some 0 else none) := by
    refine
      { entries_path := ?_, entries_weight := ?_, entries_node := ?_,
        dist_sound := ?_, dist_pq := ?_, pq_dist := ?_, dist_start := by simp,
        visited_min := by simp, visited_relaxed := by simp }
    · intro e he
      rw [List.mem_singleton.mp he]
      simp [isPath, chainOK, lastLoc]
    · intro e he
      rw [List.mem_singleton.mp he]
      simp [pathWeight, weightFrom]
    · intro e he
      rw [List.mem_singleton.mp he]
      exact hstart
    · intro v d hvd
      by_cases hv : v = start
      · subst hv
        rw [if_pos rfl] at hvd
        refine ⟨[v], by simp [isPath, chainOK, lastLoc], ?_⟩
        rw [← Option.some.inj hvd]
        simp [pathWeight, weightFrom]
      · rw [if_neg hv] at hvd
        exact absurd hvd (by simp)
    · intro v d _ hvd
      by_cases hv : v = start
      · subst hv
        rw [if_pos rfl] at hvd
        exact ⟨(0, v, [v]), List.mem_singleton_self _, rfl,
          by rw [← Option.some.inj hvd]⟩
      · rw [if_neg hv] at hvd
        exact absurd hvd (by simp)
    · intro e he _
      rw [List.mem_singleton.mp he]
      exact ⟨0, by simp, Nat.zero_le _⟩
  exact dijkstraLoop_spec g m start endl hwf (dijkstraFuel g)
    [(0, start, [start])] [] _ hinv0 (List.pairwise_singleton _ _)
    (Phi_init_lt g start) (by simp)

/-- Optimality of `dijkstra` for every reachable pair of a well-formed
network, without assuming the start node present (derivable except in the
trivial `start == end` case, which short-circuits). -/
theorem dijkstra_optimal (g : Graph) (start endl : Loc) (m : String)
    (hwf : g.wf = true) (hr : Reachable g start endl) :
    ∃ pp ww, dijkstra g start endl m = .found pp ww ∧
      isPath g start endl pp = true ∧ pathWeight g m pp = ww ∧
      ∀ q, isPath g start endl q = true → ww ≤ pathWeight g m q := by
  by_cases hse : start = endl
  · subst hse
    refine ⟨[start], 0, dijkstra_self g start m, ?_, ?_, fun q hq => Nat.zero_le _⟩
    · simp [isPath, chainOK, lastLoc]
    · simp [pathWeight, weightFrom]
  · obtain ⟨q, hq⟩ := hr
    obtain ⟨xs, rfl, hchain, hlast⟩ := isPath_elim hq
    cases xs with
    | nil => exact absurd hlast hse
    | cons b rest =>
      have hchain2 : ((g.findRoute start b).isSome && chainOK g b rest) = true := hchain
      have hmem := (findRoute_endpoints_mem hwf (Bool.and_eq_true_iff.mp hchain2).1).1
      exact (dijkstra_correct g m start endl hwf hmem).1
        ⟨start :: b :: rest, hq⟩

/-- Claim C1 (theorem): on every well-formed network (non-negative weights
modelled by `Nat`), for every metric and every pair with `endl` reachable
from `start`, `dijkstra` returns a valid path from `start` to `endl` whose
summed metric weight is minimal among all valid paths. -/
theorem c1_dijkstra_shortest (g : Graph) (start endl : Loc) (m : String)
    (hwf : g.wf = true) (hr : Reachable g start endl) :
    ∃ pp ww, dijkstra g start endl m = .found pp ww ∧
      isPath g start endl pp = true ∧ pathWeight g m pp = ww ∧
      ∀ q, isPath g start endl q = true → ww ≤ pathWeight g m q :=
  dijkstra_optimal g start endl m hwf hr

/-- Closes the hypotheses of the C1 theorem on the sample network. -/
theorem c1_dijkstra_shortest_witness :
    sampleGraph.wf = true ∧ Reachable sampleGraph "Warehouse" "City_E" ∧
    (∃ pp ww, dijkstra sampleGraph "Warehouse" "City_E" "distance" = .found pp ww ∧
      isPath sampleGraph "Warehouse" "City_E" pp = true ∧
      pathWeight sampleGraph "distance" pp = ww ∧
      ∀ q, isPath sampleGraph "Warehouse" "City_E" q = true →
        ww ≤ pathWeight sampleGraph "distance" q) :=
  ⟨by decide, ⟨["Warehouse", "Hub_1", "City_D", "City_E"], by decide⟩,
    c1_dijkstra_shortest sampleGraph "Warehouse" "City_E" "distance" (by decide)
      ⟨["Warehouse", "Hub_1", "City_D", "City_E"], by decide⟩⟩

/-! ## Claim C3: absent or unreachable endpoints -/

/-- In a network with no Routes no two distinct locations are connected. -/
theorem no_edges_unreachable (nodes : List (Loc × Option Pos)) (a b : Loc)
    (hab : a ≠ b) : ¬ Reachable ⟨nodes, []⟩ a b := by
  rintro ⟨q, hq⟩
  obtain ⟨xs, rfl, hchain, hlast⟩ := isPath_elim hq
  cases xs with
  | nil => exact hab hlast
  | cons c rest =>
    have hchain2 : (((⟨nodes, []⟩ : Graph).findRoute a c).isSome
        && chainOK ⟨nodes, []⟩ c rest) = true := hchain
    have := (Bool.and_eq_true_iff.mp hchain2).1
    simp [Graph.findRoute, List.find?] at this

/-- Claim C3 (counterexample): with a start location that is not present
(and different from the end), `dijkstra` raises `NetworkXError` out of
`graph.neighbors` — it neither returns the `(None, inf)` sentinel nor any
other normal value. -/
theorem c3_dijkstra_exception_counterexample :
    dijkstra ⟨[("A", some (0, 0))], []⟩ "Z" "A" "distance" = .err ∧
    DijkstraResult.err ≠ DijkstraResult.notFound :=
  ⟨by decide, by decide⟩

/-- Claim C3 (amended): when `start` is present and `endl` is absent or
unreachable, `dijkstra` returns the `(None, inf)` sentinel and raises no
exception, and that sentinel is distinguishable from every found result;
but when `start` is absent and differs from `endl`, the call instead raises
`NetworkXError` (and when `start == endl` it returns `([start], 0)` even for
an absent location, per the C6 theorem). -/
theorem c3_dijkstra_failure_modes (g : Graph) (start endl : Loc) (m : String)
    (hwf : g.wf = true) :
    (start ∈ g.nodeNames → ¬ Reachable g start endl →
      dijkstra g start endl m = .notFound) ∧
    (¬ start ∈ g.nodeNames → start ≠ endl → dijkstra g start endl m = .err) ∧
    (∀ pp ww, (DijkstraResult.notFound : DijkstraResult) ≠ .found pp ww) := by
  refine ⟨?_, ?_, by intro pp ww h; cases h⟩
  · intro hstart hnr
    exact (dijkstra_correct g m start endl hwf hstart).2 hnr
  · intro hstart hne
    have hnode : ¬ (g.hasNode start = true) := by rw [hasNode_mem]; exact hstart
    show dijkstraLoop g endl m (dijkstraFuel g) [(0, start, [start])] []
      (fun v => if v = start then some 0 else none) = .err
    rw [show dijkstraFuel g = (g.nodes.length * (g.edges.length + 1) + 1) + 1 from rfl,
      dijkstraLoop, if_neg (List.not_mem_nil start), if_neg hne, if_neg hnode]

/-- Closes the hypotheses of the amended C3 theorem: a two-component network
(no edges) gives `(None, inf)` for `A → B`, and an absent start `Z` raises. -/
theorem c3_dijkstra_failure_modes_witness :
    (⟨[("A", some (0, 0)), ("B", some (0, 0))], []⟩ : Graph).wf = true ∧
    dijkstra ⟨[("A", some (0, 0)), ("B", some (0, 0))], []⟩ "A" "B" "distance"
      = .notFound ∧
    dijkstra ⟨[("A", some (0, 0)), ("B", some (0, 0))], []⟩ "Z" "A" "distance"
      = .err := by
  refine ⟨by decide, ?_, ?_⟩
  · exact (c3_dijkstra_failure_modes ⟨[("A", some (0, 0)), ("B", some (0, 0))], []⟩
      "A" "B" "distance" (by decide)).1 (by decide)
      (no_edges_unreachable [("A", some (0, 0)), ("B", some (0, 0))] "A" "B" (by decide))
  · exact (c3_dijkstra_failure_modes ⟨[("A", some (0, 0)), ("B", some (0, 0))], []⟩
      "Z" "A" "distance" (by decide)).2.1 (by decide) (by decide)

/-! ## Claim C10: invalid metric strings -/

theorem weightFrom_invalid (g : Graph) (m : String)
    (hm1 : m ≠ "distance") (hm2 : m ≠ "time") (hm3 : m ≠ "cost") :
    ∀ (tail : List Loc) (a : Loc), chainOK g a tail = true →
      weightFrom g m a tail = tail.length
  | [], _, _ => rfl
  | b :: rest, a, hchain => by
    have hchain2 : ((g.findRoute a b).isSome && chainOK g b rest) = true := hchain
    rcases Bool.and_eq_true_iff.mp hchain2 with ⟨hab, hbrest⟩
    rcases hr : g.findRoute a b with _ | r
    · rw [hr] at hab; exact absurd hab (by simp)
    · show edgeW g m a b + weightFrom g m b rest = rest.length + 1
      rw [weightFrom_invalid g m hm1 hm2 hm3 rest b hbrest]
      have hget : r.get m = 1 := by
        unfold Route.get
        rw [if_neg hm1, if_neg hm2, if_neg hm3]
      have hE : edgeW g m a b = r.get m := by simp [edgeW, hr]
      rw [hE, hget]
      omega

/-- Claim C10 (theorem): a metric string other than `distance`, `time`,
`cost` does not make `dijkstra` fail: every edge weight defaults to 1 via
`edge_data.get(weight_type, 1)`, so the returned path has weight equal to its
edge count and minimises the hop count over all valid paths. -/
theorem c10_invalid_metric (g : Graph) (start endl : Loc) (m : String)
    (hwf : g.wf = true) (hm1 : m ≠ "distance") (hm2 : m ≠ "time") (hm3 : m ≠ "cost")
    (hr : Reachable g start endl) :
    ∃ pp, dijkstra g start endl m = .found pp (pp.length - 1) ∧
      isPath g start endl pp = true ∧
      ∀ q, isPath g start endl q = true → pp.length ≤ q.length := by
  obtain ⟨pp, ww, hres, hpath, hweight, hopt⟩ := dijkstra_optimal g start endl m hwf hr
  have hlen : ∀ q, isPath g start endl q = true → pathWeight g m q = q.length - 1 := by
    intro q hq
    obtain ⟨xs, rfl, hchain, _⟩ := isPath_elim hq
    show weightFrom g m start xs = (start :: xs).length - 1
    rw [weightFrom_invalid g m hm1 hm2 hm3 xs start hchain]
    simp
  have hww : ww = pp.length - 1 := by rw [← hweight]; exact hlen pp hpath
  refine ⟨pp, ?_, hpath, ?_⟩
  · rw [← hww]
    exact hres
  · intro q hq
    have h1 := hopt q hq
    rw [hlen q hq, ← hweight, hlen pp hpath] at h1
    obtain ⟨xs, rfl, _, _⟩ := isPath_elim hpath
    obtain ⟨ys, rfl, _, _⟩ := isPath_elim hq
    simp only [List.length_cons] at h1 ⊢
    omega

/-- Closes the hypotheses of the C10 theorem on the sample network with the
invalid metric string `speed`. -/
theorem c10_invalid_metric_witness :
    sampleGraph.wf = true ∧ Reachable sampleGraph "Warehouse" "City_A" ∧
    (∃ pp, dijkstra sampleGraph "Warehouse" "City_A" "speed"
        = .found pp (pp.length - 1) ∧
      isPath sampleGraph "Warehouse" "City_A" pp = true ∧
      ∀ q, isPath sampleGraph "Warehouse" "City_A" q = true →
        pp.length ≤ q.length) :=
  ⟨by decide, ⟨["Warehouse", "City_A"], by decide⟩,
    c10_invalid_metric sampleGraph "Warehouse" "City_A" "speed" (by decide)
      (by decide) (by decide) (by decide)
      ⟨["Warehouse", "City_A"], by decide⟩⟩

/-! ## Claim C9: the planner stops early and tolerates empty stop sets -/

theorem scanStops_all_notFound (g : Graph) (m : String) (current : Loc) :
    ∀ (ss : List Loc) (best : Option (Loc × List Loc × Nat)),
      (∀ s ∈ ss, dijkstra g current s m = .notFound) →
      scanStops g m current ss best = some best
  | [], _, _ => rfl
  | s :: ss, best, h => by
    rw [scanStops, h s (List.mem_cons_self _ _)]
    exact scanStops_all_notFound g m current ss best
      (fun x hx => h x (List.mem_cons_of_mem _ hx))

/-- Claim C9 (theorem): when no remaining unvisited stop is reachable from
the current position, the planner loop returns the route and weight
accumulated so far as a normal result; and for an empty stop set
`find_multi_stop_route` returns `([origin], 0)`. -/
theorem c9_planner_stops_early (g : Graph) (m : String) (current : Loc)
    (unvisited route : List Loc) (total : Nat) (origin : Loc)
    (hwf : g.wf = true) (hc : current ∈ g.nodeNames)
    (hunreach : ∀ s ∈ unvisited, ¬ Reachable g current s) :
    multiStopLoop g m current unvisited route total = some (route, total) ∧
    find_multi_stop_route g origin [] m = some ([origin], 0) := by
  constructor
  · have hscan : scanStops g m current unvisited none = some none :=
      scanStops_all_notFound g m current unvisited none
        (fun s hs => (dijkstra_correct g m current s hwf hc).2 (hunreach s hs))
    rw [multiStopLoop]
    split <;> rename_i heq <;> rw [hscan] at heq <;> first | rfl | simp at heq
  · rfl

/-- Closes the hypotheses of the C9 theorem: stop `B` lies in another
component than the origin `A`, so the loop returns the partial route `[A]`
with weight 0; the empty stop set gives `([X], 0)`. -/
theorem c9_planner_stops_early_witness :
    ¬ Reachable ⟨[("A", some (0, 0)), ("B", some (0, 0))], []⟩ "A" "B" ∧
    (multiStopLoop ⟨[("A", some (0, 0)), ("B", some (0, 0))], []⟩ "distance"
        "A" ["B"] ["A"] 0 = some (["A"], 0) ∧
     find_multi_stop_route ⟨[("A", some (0, 0)), ("B", some (0, 0))], []⟩
        "X" [] "distance" = some (["X"], 0)) :=
  ⟨no_edges_unreachable [("A", some (0, 0)), ("B", some (0, 0))] "A" "B" (by decide),
    c9_planner_stops_early ⟨[("A", some (0, 0)), ("B", some (0, 0))], []⟩
      "distance" "A" ["B"] ["A"] 0 "X" (by decide) (by decide)
      (fun s hs => by
        rw [List.mem_singleton.mp hs]
        exact no_edges_unreachable [("A", some (0, 0)), ("B", some (0, 0))] "A" "B"
          (by decide))⟩
